import Mathlib

/-!
Verification of the annotation scanner and interactive resolution engine of
`zaphod.py` (a LaTeX change-tracking tool).  The buffer is modelled as a
`List Char`; the `re` searches used by the source are modelled as literal
token searches (`findTok`) combined with runs of trailing whitespace
(`wsRun`), matching Python's behaviour for the concrete patterns of the
source, whose only non-literal parts are `\s*`, non-greedy `(.*?)\}` and
the greedy DOTALL `.*` of the preamble pattern.  Character classes are
ASCII: `\s` is modelled by the six ASCII whitespace characters that Python
matches.  Fallible regex accesses (calling `.start()` / `.end()` on a
`None` search result raises `AttributeError` in Python) are modelled by
explicit error results.
-/

set_option maxRecDepth 100000

/-- Python's `\s` class, restricted to ASCII: space, tab, newline, carriage
return, vertical tab and form feed. -/
def isSpaceChar (c : Char) : Bool :=
  c = ' ' || c = '\t' || c = '\n' || c = '\r' || c = '\x0b' || c = '\x0c'

/-- Length of the maximal leading whitespace run: what the greedy `\s*`
consumes at the front of a string. -/
def wsRun : List Char → Nat
  | [] => 0
  | c :: rest => if isSpaceChar c then wsRun rest + 1 else 0

/-- Whether the literal token `tok` matches at the very start of `s`. -/
def tokAt : List Char → List Char → Bool
  | [], _ => true
  | _ :: _, [] => false
  | a :: as, b :: bs => a = b && tokAt as bs

/-- Leftmost match position of a literal token, i.e. `re.search(tok, s).start()`
for a pattern whose prefix is the literal `tok`; `none` when the search
returns `None`. -/
def findTok (tok : List Char) : List Char → Option Nat
  | [] => if tokAt tok [] then some 0 else none
  | c :: rest =>
      if tokAt tok (c :: rest) then some 0
      else (findTok tok rest).map (· + 1)

/-- Rightmost match position of a literal token (used for the greedy `.*`
of the preamble pattern, which stretches to the last possible end marker). -/
def findLastTok (tok : List Char) : List Char → Option Nat
  | [] => if tokAt tok [] then some 0 else none
  | c :: rest =>
      match findLastTok tok rest with
      | some i => some (i + 1)
      | none => if tokAt tok (c :: rest) then some 0 else none

/-- Whether a literal token occurs anywhere in `s`. -/
def hasTok (tok : List Char) (s : List Char) : Bool :=
  (findTok tok s).isSome

/-- End offset of the search for a pattern made of the literal `tok`
followed by `\s*`: match start plus the token length plus the greedy
whitespace run that follows the token. -/
def matchEnd (tok : List Char) (s : List Char) : Option Nat :=
  (findTok tok s).map (fun i => i + tok.length + wsRun (s.drop (i + tok.length)))

/-- Python slice `t[a:b]` for `0 ≤ a`, `0 ≤ b`. -/
def listExtract (t : List Char) (a b : Nat) : List Char :=
  (t.drop a).take (b - a)

/-- The literal of `self.rpDelbegin = re.compile(r'\\DIFdelbegin\s*')`. -/
def delBeginTok : List Char :=
  ['\\', 'D', 'I', 'F', 'd', 'e', 'l', 'b', 'e', 'g', 'i', 'n']

/-- The literal of `self.rpDelend = re.compile(r'\\DIFdelend\s*')`. -/
def delEndTok : List Char :=
  ['\\', 'D', 'I', 'F', 'd', 'e', 'l', 'e', 'n', 'd']

/-- The literal of `self.rpAddbegin = re.compile(r'\\DIFaddbegin\s*')`. -/
def addBeginTok : List Char :=
  ['\\', 'D', 'I', 'F', 'a', 'd', 'd', 'b', 'e', 'g', 'i', 'n']

/-- The literal of `self.rpAddend = re.compile(r'\\DIFaddend\s*')`. -/
def addEndTok : List Char :=
  ['\\', 'D', 'I', 'F', 'a', 'd', 'd', 'e', 'n', 'd']

/-- The opening literal of the payload-unwrapping pattern
`re.sub(r'\\DIFdel\{(.*?)\}', r'\1', ...)`. -/
def delCmdTok : List Char :=
  ['\\', 'D', 'I', 'F', 'd', 'e', 'l', '\x7b']

/-- The opening literal of the payload-unwrapping pattern
`re.sub(r'\\DIFadd\{(.*?)\}', r'\1', ...)`. -/
def addCmdTok : List Char :=
  ['\\', 'D', 'I', 'F', 'a', 'd', 'd', '\x7b']

/-- First literal of `self.rpPreamble`:
`%DIF PREAMBLE EXTENSION ADDED BY LATEXDIFF`. -/
def preambleStartTok : List Char :=
  "%DIF PREAMBLE EXTENSION ADDED BY LATEXDIFF".toList

/-- Second literal of `self.rpPreamble`:
`%DIF END PREAMBLE EXTENSION ADDED BY LATEXDIFF` followed by a newline. -/
def preambleEndTok : List Char :=
  "%DIF END PREAMBLE EXTENSION ADDED BY LATEXDIFF\n".toList

example : findTok addBeginTok ("A \\DIFaddbegin x".toList) = some 2 := by decide

example : matchEnd addBeginTok ("A \\DIFaddbegin x".toList) = some 15 := by decide

/-- One user decision for a span: `Y`/`y`, `N`/`n` or `Q`/`q` at the
`Delete? Y/N/Q/y/n/q:` / `Add? Y/N/Q/y/n/q:` prompts.  Unrecognised input
makes the source re-prompt without consuming a decision, so a decision
list models the sequence of recognised answers. -/
inductive Decision
  | accept
  | reject
  | quit
deriving DecidableEq

/-- The two span kinds of the marker grammar. -/
inductive Kind
  | addition
  | deletion
deriving DecidableEq

/-- Result of revising one file.  `written out rest` means the scan loop
finished, `out` was written to the file (lines 357-359) and `rest` are the
unconsumed decisions.  `quitExit` is the `Q` path: `generate_pdf` and
`save_changes` run and then `sys.exit(0)` ends the process, so the file is
never written.  `scanFail` is the `AttributeError` raised by calling
`.start()`/`.end()` on a failed search: the exception propagates and the
file is never written.  `noDecision` marks exhaustion of the modelled
decision list (the source would block on `input()`), and `fuelOut` marks
exhaustion of the recursion fuel. -/
inductive RunResult
  | written : List Char → List Decision → RunResult
  | quitExit : RunResult
  | scanFail : RunResult
  | noDecision : RunResult
  | fuelOut : RunResult
deriving DecidableEq

/-- Model of `re.sub(tok ++ r'(.*?)\}', r'\1', s, flags=re.DOTALL)` for an opening
literal `tok` (such as `\DIFdel{`): replace every non-overlapping match by
its group, scanning left to right.  A match starts at the leftmost
occurrence of `tok` followed by some later `}` and, being non-greedy, ends
at the first `}` after the occurrence.  If the leftmost occurrence of
`tok` has no `}` after it, no later occurrence has one either, so the
whole search fails and the string is returned unchanged. -/
def cmdSubF : Nat → List Char → List Char → List Char
  | 0, _, s => s
  | fuel + 1, tok, s =>
    match findTok tok s with
    | none => s
    | some p =>
      match findTok ['\x7d'] (s.drop (p + tok.length)) with
      | none => s
      | some r =>
        s.take p ++ listExtract s (p + tok.length) (p + tok.length + r) ++
          cmdSubF fuel tok (s.drop (p + tok.length + r + 1))

/-- Payload unwrapping (lines 297-298 and 331-332): the fuel `s.length`
dominates the number of matches, each of which consumes at least one
character. -/
def cmdSub (tok : List Char) (s : List Char) : List Char :=
  cmdSubF s.length tok s

/-- The match of `re.search(rpPreamble, s, flags=re.DOTALL)` as a pair
(start, end): the match starts at the leftmost occurrence of the start
literal and, `.*` being greedy under DOTALL, extends to the end of the
rightmost occurrence of the end literal that begins at or after the end
of the start literal.  If the leftmost start literal has no end literal
after it, no later one has either, so the search fails. -/
def preambleMatch (s : List Char) : Option (Nat × Nat) :=
  match findTok preambleStartTok s with
  | none => none
  | some p =>
    match findLastTok preambleEndTok (s.drop (p + preambleStartTok.length)) with
    | none => none
    | some r =>
      some (p, p + preambleStartTok.length + r + preambleEndTok.length)

/-- Model of `re.sub(self.rpPreamble, '', s, flags=re.DOTALL)`: remove every
non-overlapping match, scanning left to right. -/
def preambleSubF : Nat → List Char → List Char
  | 0, s => s
  | fuel + 1, s =>
    match preambleMatch s with
    | none => s
    | some (a, b) => s.take a ++ preambleSubF fuel (s.drop b)

/-- Preamble-extension removal (lines 261-264 and 472-475). -/
def preambleSub (s : List Char) : List Char :=
  preambleSubF s.length s

/-- Lines 268-281 (and the copy at lines 477-489): the start offset,
relative to `filetext[head:]`, of the next occurrence of a begin marker,
with `len(filetext)` standing in for a failed search. -/
def startOf (tok : List Char) (filetext : List Char) (head : Nat) : Nat :=
  match findTok tok (filetext.drop head) with
  | none => filetext.length
  | some i => i

/-- The scan-and-resolve loop of `Zaphod.revise`, lines 267-355.  `head`
and `tail` are the two offsets of the source; `revised` is the
accumulated `revisedfiletext`; `ds` the pending decisions.  Fuel replaces
the `while` loop; `reviseText` supplies `filetext.length`, which is shown
below to suffice (`claim10_loop_terminates`). -/
def loopF : Nat → List Char → Nat → Nat → List Char → List Decision → RunResult
  | 0, filetext, head, _, revised, ds =>
    if head < filetext.length then .fuelOut else .written revised ds
  | fuel + 1, filetext, head, tail, revised, ds =>
    if head < filetext.length then
      -- lines 268-281: what's next - addition or deletion?
      let del_start := startOf delBeginTok filetext head
      let add_start := startOf addBeginTok filetext head
      -- lines 283-286: if both are at EOL
      if add_start = del_start then
        .written (revised ++ filetext.drop head) ds
      else if del_start < add_start then
        -- lines 288-321: it's a deletion
        let head1 := del_start + tail
        let revised1 := revised ++ listExtract filetext tail head1
        match matchEnd delBeginTok (filetext.drop head1) with
        | none => .scanFail
        | some e1 =>
          let tail1 := e1 + head1
          match findTok delEndTok (filetext.drop tail1) with
          | none => .scanFail
          | some s2 =>
            let head2 := s2 + tail1
            let deletion := cmdSub delCmdTok (listExtract filetext tail1 head2)
            match ds with
            | [] => .noDecision
            | .quit :: _ => .quitExit
            | d :: rest =>
              let revised2 := if d = .reject then revised1 ++ deletion else revised1
              match matchEnd delEndTok (filetext.drop tail1) with
              | none => .scanFail
              | some e2 => loopF fuel filetext (e2 + tail1) (e2 + tail1) revised2 rest
      else
        -- lines 322-355: it's an addition
        let head1 := add_start + tail
        let revised1 := revised ++ listExtract filetext tail head1
        match matchEnd addBeginTok (filetext.drop head1) with
        | none => .scanFail
        | some e1 =>
          let tail1 := e1 + head1
          match findTok addEndTok (filetext.drop tail1) with
          | none => .scanFail
          | some s2 =>
            let head2 := s2 + tail1
            let addition := cmdSub addCmdTok (listExtract filetext tail1 head2)
            match ds with
            | [] => .noDecision
            | .quit :: _ => .quitExit
            | d :: rest =>
              let revised2 := if d = .accept then revised1 ++ addition else revised1
              match matchEnd addEndTok (filetext.drop tail1) with
              | none => .scanFail
              | some e2 => loopF fuel filetext (e2 + tail1) (e2 + tail1) revised2 rest
    else
      .written revised ds

/-- The resolution engine on a buffer whose preamble has already been
stripped: lines 253-256 initialise `head = tail = 0` and the loop runs. -/
def reviseText (filetext : List Char) (ds : List Decision) : RunResult :=
  loopF filetext.length filetext 0 0 [] ds

/-- Revising one file (lines 250-359): read, strip the preamble
extensions, run the loop, and on normal completion write the result. -/
def reviseFile (raw : List Char) (ds : List Decision) : RunResult :=
  reviseText (preambleSub raw) ds

/-- End state of a batch run: `finishedAll` lists the contents written,
one per processed file; `halted` means the process stopped early (the
`sys.exit(0)` of the Quit path, or the uncaught scan exception), with the
current file and all later ones untouched on disk. -/
inductive BatchResult
  | finishedAll : List (List Char) → BatchResult
  | halted : List (List Char) → BatchResult
deriving DecidableEq

/-- The file loop of `Zaphod.revise` (lines 222-366), with the
interactive picker modelled as always choosing the first remaining file:
each completed file is written and removed, and a Quit or scan failure
ends the whole run with nothing further written. -/
def reviseBatch : List (List Char) → List Decision → BatchResult
  | [], _ => .finishedAll []
  | f :: fs, ds =>
    match reviseFile f ds with
    | .written out rest =>
      match reviseBatch fs rest with
      | .finishedAll w => .finishedAll (out :: w)
      | .halted w => .halted (out :: w)
    | _ => .halted []

/-- The classification step of the scanner (lines 268-288 and 322): which
kind of span, if any, the loop iteration starting at `head` picks. -/
def scanKind (filetext : List Char) (head : Nat) : Option Kind :=
  let del_start := startOf delBeginTok filetext head
  let add_start := startOf addBeginTok filetext head
  if add_start = del_start then none
  else if del_start < add_start then some .deletion
  else some .addition

/-- The candidate test of `Zaphod.get_modified_latex_files`
(lines 465-493): strip preamble extensions, locate the two begin markers
exactly as the loop does, and keep the file unless both searches tie. -/
def hasDiffMarkers (raw : List Char) : Bool :=
  let filetext := preambleSub raw
  let del_start := startOf delBeginTok filetext 0
  let add_start := startOf addBeginTok filetext 0
  if add_start = del_start then false else true

example :
    reviseText ("A \\DIFaddbegin \\DIFadd\x7bnew\x7d \\DIFaddend B".toList) [.accept] =
      .written ("A new B".toList) [] := by decide

example :
    reviseText ("A \\DIFdelbegin \\DIFdel\x7bold\x7d \\DIFdelend B".toList) [.reject] =
      .written ("A old B".toList) [] := by decide

example :
    reviseText ("A \\DIFdelbegin \\DIFdel\x7bold\x7d \\DIFdelend B".toList) [.accept] =
      .written ("A B".toList) [] := by decide

example : cmdSub delCmdTok ("\\DIFdel\x7ba\x7bb\x7dc\x7d".toList) = "a\x7bbc\x7d".toList := by decide

example :
    preambleSub ("a%DIF PREAMBLE EXTENSION ADDED BY LATEXDIFF p%DIF END PREAMBLE EXTENSION ADDED BY LATEXDIFF\nx%DIF PREAMBLE EXTENSION ADDED BY LATEXDIFF q%DIF END PREAMBLE EXTENSION ADDED BY LATEXDIFF\nb".toList) =
      "ab".toList := by decide

/-- The begin marker token of a kind. -/
def bmTok : Kind → List Char
  | .addition => addBeginTok
  | .deletion => delBeginTok

/-- The end marker token of a kind. -/
def emTok : Kind → List Char
  | .addition => addEndTok
  | .deletion => delEndTok

/-- The inline wrapping command opener of a kind. -/
def cmdOpenTok : Kind → List Char
  | .addition => addCmdTok
  | .deletion => delCmdTok

/-- One marked span of a well-formed buffer: the plain text before the
span, the span kind, the whitespace run absorbed by the begin marker's
`\s*`, the payload region between that run and the end marker, and the
whitespace run absorbed by the end marker's `\s*`.  Every buffer in
which each scanned begin marker is followed by a matching end marker of
its kind decomposes this way, the two whitespace fields taking the
maximal whitespace runs after the marker tokens. -/
structure Seg where
  plain : List Char
  kind : Kind
  wsB : List Char
  pay : List Char
  wsE : List Char

/-- The buffer text of one segment: plain text, begin marker with its
trailing whitespace, payload region, end marker with its trailing
whitespace. -/
def renderSeg (g : Seg) : List Char :=
  g.plain ++ bmTok g.kind ++ g.wsB ++ g.pay ++ emTok g.kind ++ g.wsE

/-- The buffer text of a list of segments. -/
def renderSegs : List Seg → List Char
  | [] => []
  | g :: gs => renderSeg g ++ renderSegs gs

/-- A well-formed buffer: marked spans in document order followed by
trailing plain text. -/
def render (gs : List Seg) (trailing : List Char) : List Char :=
  renderSegs gs ++ trailing

/-- Whether a string does not start with whitespace (so that the `\s*` of
a preceding marker pattern consumes nothing of it). -/
def noLeadWs : List Char → Bool
  | [] => true
  | c :: _ => !isSpaceChar c

/-- Well-formedness of one segment: the two whitespace fields are runs
of whitespace and the payload region starts with none (so each marker's
greedy `\s*` consumes exactly the field), no begin marker hides in the
plain text, and the end marker of the span's kind does not occur early
inside the payload region.  The plain text may itself start with
whitespace; whether that matters depends on what precedes it
(`WFplains`). -/
def WFseg (g : Seg) : Bool :=
  g.wsB.all isSpaceChar && g.wsE.all isSpaceChar && noLeadWs g.pay &&
    !hasTok delBeginTok g.plain && !hasTok addBeginTok g.plain &&
    !hasTok (emTok g.kind) g.pay

/-- Whether every segment after the first starts its plain text with a
non-whitespace character: the plain text of a later segment follows the
previous end marker's `\s*`, which would otherwise absorb part of it.
The first segment's plain text starts the buffer and is unconstrained. -/
def WFplains : List Seg → Bool
  | [] => true
  | _ :: rest => rest.all fun g => noLeadWs g.plain

/-- Well-formedness of a segment list standing anywhere after a marker
in a buffer: every segment well formed and every plain text free of
leading whitespace. -/
def WFsegs (gs : List Seg) : Bool :=
  gs.all WFseg && gs.all fun g => noLeadWs g.plain

/-- Well-formedness of a whole buffer: all segments well formed, the
plain text of every segment after the first free of leading whitespace,
and the trailing text free of begin markers and — when it follows a
span's end marker — of leading whitespace. -/
def WFdoc (gs : List Seg) (trailing : List Char) : Bool :=
  gs.all WFseg && WFplains gs && (gs.isEmpty || noLeadWs trailing) &&
    !hasTok delBeginTok trailing && !hasTok addBeginTok trailing

/-- Modelled from the spec (section 4.3, step 4): what one resolved span
contributes to the output.  Accept keeps an addition and drops a
deletion; Reject drops an addition and restores a deletion; either way
the contributed payload is the unwrapped one. -/
def chosen (k : Kind) (d : Decision) (pay : List Char) : List Char :=
  match k, d with
  | .addition, .accept => cmdSub addCmdTok pay
  | .addition, _ => []
  | .deletion, .accept => []
  | .deletion, _ => cmdSub delCmdTok pay

/-- Modelled from the spec (section 8, reconstruction property): the
concatenation, in document order, of each plain-text piece and each
resolved span's contribution. -/
def resolvedSegs : List Seg → List Decision → List Char
  | [], _ => []
  | _ :: _, [] => []
  | g :: gs, d :: ds => g.plain ++ chosen g.kind d g.pay ++ resolvedSegs gs ds

/-- Modelled from the spec (section 4.2): classification of the next span
from the two begin-marker search results, the nearer one winning and a
missing one counting as at end of buffer. -/
def nextSpanKindSpec : Option Nat → Option Nat → Option Kind
  | none, none => none
  | some _, none => some .deletion
  | none, some _ => some .addition
  | some i, some j => if i < j then some .deletion else some .addition

/-- Modelled from the spec (section 3, Marker): whether the text contains
at least one of the four marker tokens. -/
def containsAnyMarker (s : List Char) : Bool :=
  hasTok delBeginTok s || hasTok addBeginTok s ||
    hasTok delEndTok s || hasTok addEndTok s

/-- Whether a run result is a completed write-back. -/
def isWritten : RunResult → Bool
  | .written _ _ => true
  | _ => false

/-- Whether a run result is fuel exhaustion. -/
def isFuelOut : RunResult → Bool
  | .fuelOut => true
  | _ => false

lemma tokAt_append_self (tok r : List Char) : tokAt tok (tok ++ r) = true := by
  induction tok with
  | nil => rfl
  | cons a as ih => simp [tokAt, ih]

lemma tokAt_length_le {tok s : List Char} (h : tokAt tok s = true) :
    tok.length ≤ s.length := by
  induction tok generalizing s with
  | nil => simp
  | cons a as ih =>
    cases s with
    | nil => simp [tokAt] at h
    | cons b bs =>
      simp only [tokAt, Bool.and_eq_true, decide_eq_true_eq] at h
      simpa using ih h.2

lemma tokAt_take {tok s : List Char} (h : tokAt tok s = true) :
    s.take tok.length = tok := by
  induction tok generalizing s with
  | nil => simp
  | cons a as ih =>
    cases s with
    | nil => simp [tokAt] at h
    | cons b bs =>
      simp only [tokAt, Bool.and_eq_true, decide_eq_true_eq] at h
      simp [h.1.symm, ih h.2]

lemma findTok_of_tokAt {tok s : List Char} (h : tokAt tok s = true) :
    findTok tok s = some 0 := by
  cases s with
  | nil => simp [findTok, h]
  | cons c rest => simp [findTok, h]

lemma findTok_self_append (tok r : List Char) : findTok tok (tok ++ r) = some 0 :=
  findTok_of_tokAt (tokAt_append_self tok r)

lemma tokAt_no_cross {t0 : Char} {b' : List Char} :
    ∀ (x us : List Char), t0 ∉ us → tokAt us (x ++ t0 :: b') = true →
      tokAt us x = true := by
  intro x
  induction x with
  | nil =>
    intro us hmem h
    cases us with
    | nil => rfl
    | cons u us' =>
      simp only [List.nil_append, tokAt, Bool.and_eq_true, decide_eq_true_eq] at h
      exact absurd (h.1 ▸ List.mem_cons_self u us') hmem
  | cons c x ih =>
    intro us hmem h
    cases us with
    | nil => rfl
    | cons u us' =>
      simp only [List.cons_append, tokAt, Bool.and_eq_true, decide_eq_true_eq] at h
      simp only [tokAt, Bool.and_eq_true, decide_eq_true_eq]
      exact ⟨h.1, ih us' (fun hm => hmem (List.mem_cons_of_mem u hm)) h.2⟩

lemma tokAt_cross_top {t0 : Char} {trest b' : List Char} (hmem : t0 ∉ trest)
    {c : Char} {x : List Char}
    (h : tokAt (t0 :: trest) ((c :: x) ++ t0 :: b') = true) :
    tokAt (t0 :: trest) (c :: x) = true := by
  simp only [List.cons_append, tokAt, Bool.and_eq_true, decide_eq_true_eq] at h ⊢
  exact ⟨h.1, tokAt_no_cross x trest hmem h.2⟩

lemma hasTok_cons_false {tok : List Char} {c : Char} {a : List Char}
    (h : hasTok tok (c :: a) = false) :
    tokAt tok (c :: a) = false ∧ findTok tok a = none := by
  simp only [hasTok, findTok] at h
  by_cases htok : tokAt tok (c :: a) = true
  · simp [htok] at h
  · simp only [Bool.not_eq_true] at htok
    simp only [htok, if_false, Option.isSome_map] at h
    exact ⟨htok, by simpa using h⟩

lemma findTok_append_cons {t0 : Char} {trest : List Char} (hmem : t0 ∉ trest)
    (b' : List Char) :
    ∀ a : List Char, hasTok (t0 :: trest) a = false →
      findTok (t0 :: trest) (a ++ t0 :: b') =
        (findTok (t0 :: trest) (t0 :: b')).map (· + a.length) := by
  intro a
  induction a with
  | nil =>
    intro _
    cases hfind : findTok (t0 :: trest) (t0 :: b') <;> simp [hfind]
  | cons c a ih =>
    intro h
    obtain ⟨hAt, hNone⟩ := hasTok_cons_false h
    have ha : hasTok (t0 :: trest) a = false := by simp [hasTok, hNone]
    have hAt2 : tokAt (t0 :: trest) (c :: (a ++ t0 :: b')) = false := by
      by_cases hc : tokAt (t0 :: trest) ((c :: a) ++ t0 :: b') = true
      · exact absurd (tokAt_cross_top hmem hc) (by simp [hAt])
      · simpa using hc
    have lhs : findTok (t0 :: trest) ((c :: a) ++ t0 :: b')
        = (findTok (t0 :: trest) (a ++ t0 :: b')).map (· + 1) := by
      show findTok (t0 :: trest) (c :: (a ++ t0 :: b')) = _
      simp only [findTok, List.append_eq]
      simp [hAt2]
    rw [lhs, ih ha]
    cases hfind : findTok (t0 :: trest) (t0 :: b') <;>
      simp [hfind, Nat.add_assoc]

lemma findTok_some_le {tok s : List Char} {i : Nat} (h : findTok tok s = some i) :
    tok.length + i ≤ s.length := by
  induction s generalizing i with
  | nil =>
    rw [findTok] at h
    by_cases ht : tokAt tok [] = true
    · simp only [ht, if_true, Option.some.injEq] at h
      subst h
      simpa using tokAt_length_le ht
    · simp [ht] at h
  | cons c rest ih =>
    rw [findTok] at h
    by_cases ht : tokAt tok (c :: rest) = true
    · simp only [ht, if_true, Option.some.injEq] at h
      subst h
      simpa using tokAt_length_le ht
    · have ht' : tokAt tok (c :: rest) = false := by simpa using ht
      simp only [ht'] at h
      cases hf : findTok tok rest with
      | none => rw [hf] at h; simp at h
      | some j =>
        rw [hf] at h
        simp at h
        have := ih hf
        simp only [List.length_cons]
        omega

lemma findTok_some_tokAt {tok s : List Char} {i : Nat}
    (h : findTok tok s = some i) : tokAt tok (s.drop i) = true := by
  induction s generalizing i with
  | nil =>
    rw [findTok] at h
    by_cases ht : tokAt tok [] = true
    · simp only [ht, if_true, Option.some.injEq] at h
      subst h
      simpa using ht
    · simp [ht] at h
  | cons c rest ih =>
    rw [findTok] at h
    by_cases ht : tokAt tok (c :: rest) = true
    · simp only [ht, if_true, Option.some.injEq] at h
      subst h
      simpa using ht
    · have ht' : tokAt tok (c :: rest) = false := by simpa using ht
      simp only [ht'] at h
      cases hf : findTok tok rest with
      | none => rw [hf] at h; simp at h
      | some j =>
        rw [hf] at h
        simp at h
        subst h
        simpa using ih hf

lemma mem_of_hasTok {t0 : Char} {trest s : List Char}
    (h : hasTok (t0 :: trest) s = true) : t0 ∈ s := by
  simp only [hasTok, Option.isSome_iff_exists] at h
  obtain ⟨i, hi⟩ := h
  have := findTok_some_tokAt hi
  cases hs : s.drop i with
  | nil => rw [hs] at this; simp [tokAt] at this
  | cons u us =>
    rw [hs] at this
    simp only [tokAt, Bool.and_eq_true, decide_eq_true_eq] at this
    have hu : u ∈ s := by
      have : u ∈ s.drop i := by simp [hs]
      exact List.mem_of_mem_drop this
    exact this.1 ▸ hu

lemma hasTok_false_of_not_mem {t0 : Char} {trest s : List Char}
    (h : t0 ∉ s) : hasTok (t0 :: trest) s = false := by
  by_cases hh : hasTok (t0 :: trest) s = true
  · exact absurd (mem_of_hasTok hh) h
  · simpa using hh

lemma wsRun_of_noLeadWs {l : List Char} (h : noLeadWs l = true) : wsRun l = 0 := by
  cases l with
  | nil => rfl
  | cons c rest =>
    simp only [noLeadWs, Bool.not_eq_true'] at h
    simp [wsRun, h]

lemma noLeadWs_append {a b : List Char} (ha : noLeadWs a = true)
    (hb : noLeadWs b = true) : noLeadWs (a ++ b) = true := by
  cases a with
  | nil => simpa using hb
  | cons c rest => simpa [noLeadWs] using ha

lemma noLeadWs_append_of_ne_nil {a : List Char} (ha : noLeadWs a = true)
    (hne : a ≠ []) (b : List Char) : noLeadWs (a ++ b) = true := by
  cases a with
  | nil => exact absurd rfl hne
  | cons c rest => simpa [noLeadWs] using ha

lemma wsRun_append_ws {a b : List Char} (ha : a.all isSpaceChar = true)
    (hb : noLeadWs b = true) : wsRun (a ++ b) = a.length := by
  induction a with
  | nil => simpa using wsRun_of_noLeadWs hb
  | cons c rest ih =>
    simp only [List.all_cons, Bool.and_eq_true] at ha
    simp [wsRun, ha.1, ih ha.2]

lemma drop_shift {t S : List Char} {c : Nat} (h : t.drop c = S) (k : Nat) :
    t.drop (c + k) = S.drop k := by
  rw [← h, ← List.drop_drop]

lemma listExtract_of_drop {t S : List Char} {c : Nat} (h : t.drop c = S)
    (x y : Nat) : listExtract t (c + x) (c + y) = (S.drop x).take (y - x) := by
  unfold listExtract
  rw [drop_shift h x]
  congr 1
  omega

lemma lt_length_of_drop_ne_nil {t S : List Char} {c : Nat} (h : t.drop c = S)
    (hS : S ≠ []) : c < t.length := by
  by_contra hc
  push_neg at hc
  rw [List.drop_eq_nil_of_le hc] at h
  exact hS h.symm

lemma findTok_exact {tok : List Char} {t0 : Char} {trest : List Char}
    (htok : tok = t0 :: trest) (hmem : t0 ∉ trest) {P r : List Char}
    (hP : hasTok tok P = false) :
    findTok tok (P ++ (tok ++ r)) = some P.length := by
  subst htok
  have h := findTok_append_cons hmem (trest ++ r) P hP
  simp only [List.cons_append] at h ⊢
  rw [h]
  have hself : findTok (t0 :: trest) (t0 :: (trest ++ r)) = some 0 := by
    have h2 := findTok_self_append (t0 :: trest) r
    simpa [List.cons_append] using h2
  rw [hself]
  simp

lemma findTok_pos_of_not_tokAt {tok s : List Char} (h : tokAt tok s = false)
    {j : Nat} (hj : findTok tok s = some j) : 1 ≤ j := by
  cases s with
  | nil => rw [findTok] at hj; simp [h] at hj
  | cons c rest =>
    rw [findTok] at hj
    simp only [h] at hj
    cases hf : findTok tok rest with
    | none => rw [hf] at hj; simp at hj
    | some j' => rw [hf] at hj; simp at hj; omega

lemma findTok_other_gt {tokB tokA : List Char} {t0 : Char} {trB trA r : List Char}
    (hB : tokB = t0 :: trB) (hA : tokA = t0 :: trA) (hmemB : t0 ∉ trB)
    (hAt : tokAt tokB (tokA ++ r) = false)
    {P : List Char} (hP : hasTok tokB P = false) {j : Nat}
    (hj : findTok tokB (P ++ (tokA ++ r)) = some j) : P.length < j := by
  subst hB; subst hA
  have h := findTok_append_cons hmemB (trA ++ r) P hP
  simp only [List.cons_append] at h hj
  rw [h] at hj
  cases hf : findTok (t0 :: trB) (t0 :: (trA ++ r)) with
  | none => rw [hf] at hj; simp at hj
  | some j' =>
    rw [hf] at hj
    simp only [Option.map_some', Option.some.injEq] at hj
    have h1 : 1 ≤ j' := by
      refine findTok_pos_of_not_tokAt ?_ hf
      simpa [List.cons_append] using hAt
    omega

lemma tokAt_of_ne_take {tok x : List Char} (r : List Char)
    (hlen : tok.length = x.length) (hne : tok ≠ x) : tokAt tok (x ++ r) = false := by
  by_cases h : tokAt tok (x ++ r) = true
  · have h2 := tokAt_take h
    rw [hlen, List.take_left] at h2
    exact absurd h2.symm hne
  · simpa using h

lemma drop_left2 (P Q R : List Char) :
    (P ++ (Q ++ R)).drop (P.length + Q.length) = R := by
  rw [show P.length + Q.length = (P ++ Q).length by simp, ← List.append_assoc,
    List.drop_left]

lemma drop_left3 (P Q R S : List Char) :
    (P ++ (Q ++ (R ++ S))).drop (P.length + (Q.length + R.length)) = S := by
  have h1 : P ++ (Q ++ (R ++ S)) = (P ++ (Q ++ R)) ++ S := by
    simp [List.append_assoc]
  have h2 : (P ++ (Q ++ R)).length = P.length + (Q.length + R.length) := by
    simp [List.length_append]
  rw [h1, ← h2, List.drop_left]

lemma loop_done {fuel : Nat} {t : List Char} {head tail : Nat} {acc : List Char}
    {ds : List Decision} (h : ¬ head < t.length) :
    loopF fuel t head tail acc ds = .written acc ds := by
  cases fuel <;> simp [loopF, h]

lemma loop_tie {fuel : Nat} {t : List Char} {c tail : Nat} {acc : List Char}
    {ds : List Decision} (hlt : c < t.length)
    (hdel : findTok delBeginTok (t.drop c) = none)
    (hadd : findTok addBeginTok (t.drop c) = none) :
    loopF (fuel + 1) t c tail acc ds = .written (acc ++ t.drop c) ds := by
  simp [loopF, startOf, hlt, hdel, hadd]

lemma loop_step {t : List Char} {c : Nat} {g : Seg} {K : List Char}
    (hwf : WFseg g = true) (hK : noLeadWs K = true)
    (hsuf : t.drop c = renderSeg g ++ K)
    (fuel : Nat) (acc : List Char) (d : Decision) (ds : List Decision) :
    loopF (fuel + 1) t c c acc (d :: ds) =
      if d = .quit then .quitExit
      else loopF fuel t (c + (renderSeg g).length) (c + (renderSeg g).length)
        (acc ++ (g.plain ++ chosen g.kind d g.pay)) ds := by
  obtain ⟨P, k, wsB, pay, wsE⟩ := g
  cases k with
  | deletion =>
    simp only [WFseg, Bool.and_eq_true, Bool.not_eq_true'] at hwf
    obtain ⟨⟨⟨⟨⟨hwsB, hwsE⟩, hPayws⟩, hPdel⟩, hPadd⟩, hPayEm⟩ := hwf
    have hPayEm' : hasTok delEndTok pay = false := by simpa [emTok] using hPayEm
    have hsuf2 : t.drop c =
        P ++ (delBeginTok ++ (wsB ++ (pay ++ (delEndTok ++ (wsE ++ K))))) := by
      simpa only [renderSeg, bmTok, emTok, List.append_assoc] using hsuf
    have hlen0 := congrArg List.length hsuf2
    simp only [List.length_drop, List.length_append] at hlen0
    have hbm : 0 < delBeginTok.length := by decide
    have hlt : c < t.length := by omega
    have hPlt : P.length < t.length := by omega
    have hdel : findTok delBeginTok (t.drop c) = some P.length := by
      rw [hsuf2]; exact findTok_exact rfl (by decide) hPdel
    have hDel : startOf delBeginTok t c = P.length := by
      unfold startOf; rw [hdel]
    have hdropbm : t.drop (P.length + c) =
        delBeginTok ++ (wsB ++ (pay ++ (delEndTok ++ (wsE ++ K)))) := by
      rw [Nat.add_comm P.length c, drop_shift hsuf2 P.length, List.drop_left]
    have hEnd : noLeadWs (delEndTok ++ (wsE ++ K)) = true :=
      noLeadWs_append_of_ne_nil (by decide) (by decide) (wsE ++ K)
    have hme1 : matchEnd delBeginTok (t.drop (P.length + c)) =
        some (delBeginTok.length + wsB.length) := by
      rw [hdropbm]
      unfold matchEnd
      rw [findTok_self_append]
      have hws : wsRun (wsB ++ (pay ++ (delEndTok ++ (wsE ++ K)))) = wsB.length :=
        wsRun_append_ws hwsB (noLeadWs_append hPayws hEnd)
      simp [List.drop_left, hws]
    have hdroppay : t.drop (delBeginTok.length + wsB.length + (P.length + c)) =
        pay ++ (delEndTok ++ (wsE ++ K)) := by
      rw [show delBeginTok.length + wsB.length + (P.length + c) =
        c + (P.length + (delBeginTok.length + wsB.length)) by omega,
        drop_shift hsuf2, drop_left3]
    have hfind2 : findTok delEndTok
        (t.drop (delBeginTok.length + wsB.length + (P.length + c))) =
        some pay.length := by
      rw [hdroppay]; exact findTok_exact rfl (by decide) hPayEm'
    have hme2 : matchEnd delEndTok
        (t.drop (delBeginTok.length + wsB.length + (P.length + c))) =
        some (pay.length + delEndTok.length + wsE.length) := by
      unfold matchEnd
      rw [hfind2, hdroppay]
      have hws : wsRun (wsE ++ K) = wsE.length := wsRun_append_ws hwsE hK
      simp [drop_left2, hws]
    have hex1 : listExtract t c (P.length + c) = P := by
      unfold listExtract
      rw [hsuf2, show P.length + c - c = P.length by omega, List.take_left]
    have hex2 : listExtract t (delBeginTok.length + wsB.length + (P.length + c))
        (pay.length + (delBeginTok.length + wsB.length + (P.length + c))) = pay := by
      unfold listExtract
      rw [hdroppay, show pay.length + (delBeginTok.length + wsB.length + (P.length + c)) -
        (delBeginTok.length + wsB.length + (P.length + c)) = pay.length by omega,
        List.take_left]
    have hposfin : pay.length + delEndTok.length + wsE.length +
        (delBeginTok.length + wsB.length + (P.length + c)) =
        c + (renderSeg ⟨P, Kind.deletion, wsB, pay, wsE⟩).length := by
      simp only [renderSeg, bmTok, emTok, List.length_append]
      omega
    cases hfa : findTok addBeginTok (t.drop c) with
    | none =>
      have hAdd : startOf addBeginTok t c = t.length := by
        unfold startOf; rw [hfa]
      have hne : ¬ (t.length = P.length) := by omega
      cases d with
      | quit =>
        simp only [loopF, hlt, if_true, hDel, hAdd, hne, if_false, hPlt,
          reduceIte]
        simp [hme1, hfind2]
      | accept =>
        simp only [loopF, hlt, if_true, hDel, hAdd, hne, if_false, hPlt, reduceIte,
          hme1, hfind2, hme2, hex1, hex2]
        rw [hposfin]
        simp [chosen]
      | reject =>
        simp only [loopF, hlt, if_true, hDel, hAdd, hne, if_false, hPlt, reduceIte,
          hme1, hfind2, hme2, hex1, hex2]
        rw [hposfin]
        simp [chosen]
    | some j =>
      have hjgt : P.length < j := by
        refine findTok_other_gt rfl rfl (by decide) ?_ hPadd (hsuf2 ▸ hfa)
        exact tokAt_of_ne_take _ (by decide) (by decide)
      have hAdd : startOf addBeginTok t c = j := by
        unfold startOf; rw [hfa]
      have hne : ¬ (j = P.length) := by omega
      cases d with
      | quit =>
        simp only [loopF, hlt, if_true, hDel, hAdd, hne, if_false, hjgt,
          reduceIte]
        simp [hme1, hfind2]
      | accept =>
        simp only [loopF, hlt, if_true, hDel, hAdd, hne, if_false, hjgt, reduceIte,
          hme1, hfind2, hme2, hex1, hex2]
        rw [hposfin]
        simp [chosen]
      | reject =>
        simp only [loopF, hlt, if_true, hDel, hAdd, hne, if_false, hjgt, reduceIte,
          hme1, hfind2, hme2, hex1, hex2]
        rw [hposfin]
        simp [chosen]
  | addition =>
    simp only [WFseg, Bool.and_eq_true, Bool.not_eq_true'] at hwf
    obtain ⟨⟨⟨⟨⟨hwsB, hwsE⟩, hPayws⟩, hPdel⟩, hPadd⟩, hPayEm⟩ := hwf
    have hPayEm' : hasTok addEndTok pay = false := by simpa [emTok] using hPayEm
    have hsuf2 : t.drop c =
        P ++ (addBeginTok ++ (wsB ++ (pay ++ (addEndTok ++ (wsE ++ K))))) := by
      simpa only [renderSeg, bmTok, emTok, List.append_assoc] using hsuf
    have hlen0 := congrArg List.length hsuf2
    simp only [List.length_drop, List.length_append] at hlen0
    have hbm : 0 < addBeginTok.length := by decide
    have hlt : c < t.length := by omega
    have hPlt : P.length < t.length := by omega
    have hadd : findTok addBeginTok (t.drop c) = some P.length := by
      rw [hsuf2]; exact findTok_exact rfl (by decide) hPadd
    have hAdd : startOf addBeginTok t c = P.length := by
      unfold startOf; rw [hadd]
    have hdropbm : t.drop (P.length + c) =
        addBeginTok ++ (wsB ++ (pay ++ (addEndTok ++ (wsE ++ K)))) := by
      rw [Nat.add_comm P.length c, drop_shift hsuf2 P.length, List.drop_left]
    have hEnd : noLeadWs (addEndTok ++ (wsE ++ K)) = true :=
      noLeadWs_append_of_ne_nil (by decide) (by decide) (wsE ++ K)
    have hme1 : matchEnd addBeginTok (t.drop (P.length + c)) =
        some (addBeginTok.length + wsB.length) := by
      rw [hdropbm]
      unfold matchEnd
      rw [findTok_self_append]
      have hws : wsRun (wsB ++ (pay ++ (addEndTok ++ (wsE ++ K)))) = wsB.length :=
        wsRun_append_ws hwsB (noLeadWs_append hPayws hEnd)
      simp [List.drop_left, hws]
    have hdroppay : t.drop (addBeginTok.length + wsB.length + (P.length + c)) =
        pay ++ (addEndTok ++ (wsE ++ K)) := by
      rw [show addBeginTok.length + wsB.length + (P.length + c) =
        c + (P.length + (addBeginTok.length + wsB.length)) by omega,
        drop_shift hsuf2, drop_left3]
    have hfind2 : findTok addEndTok
        (t.drop (addBeginTok.length + wsB.length + (P.length + c))) =
        some pay.length := by
      rw [hdroppay]; exact findTok_exact rfl (by decide) hPayEm'
    have hme2 : matchEnd addEndTok
        (t.drop (addBeginTok.length + wsB.length + (P.length + c))) =
        some (pay.length + addEndTok.length + wsE.length) := by
      unfold matchEnd
      rw [hfind2, hdroppay]
      have hws : wsRun (wsE ++ K) = wsE.length := wsRun_append_ws hwsE hK
      simp [drop_left2, hws]
    have hex1 : listExtract t c (P.length + c) = P := by
      unfold listExtract
      rw [hsuf2, show P.length + c - c = P.length by omega, List.take_left]
    have hex2 : listExtract t (addBeginTok.length + wsB.length + (P.length + c))
        (pay.length + (addBeginTok.length + wsB.length + (P.length + c))) = pay := by
      unfold listExtract
      rw [hdroppay, show pay.length + (addBeginTok.length + wsB.length + (P.length + c)) -
        (addBeginTok.length + wsB.length + (P.length + c)) = pay.length by omega,
        List.take_left]
    have hposfin : pay.length + addEndTok.length + wsE.length +
        (addBeginTok.length + wsB.length + (P.length + c)) =
        c + (renderSeg ⟨P, Kind.addition, wsB, pay, wsE⟩).length := by
      simp only [renderSeg, bmTok, emTok, List.length_append]
      omega
    cases hfd : findTok delBeginTok (t.drop c) with
    | none =>
      have hDel : startOf delBeginTok t c = t.length := by
        unfold startOf; rw [hfd]
      have hne : ¬ (P.length = t.length) := by omega
      have hnlt : ¬ (t.length < P.length) := by omega
      cases d with
      | quit =>
        simp only [loopF, hlt, if_true, hAdd, hDel, hne, if_false, hnlt,
          reduceIte]
        simp [hme1, hfind2]
      | accept =>
        simp only [loopF, hlt, if_true, hAdd, hDel, hne, if_false, hnlt, reduceIte,
          hme1, hfind2, hme2, hex1, hex2]
        rw [hposfin]
        simp [chosen]
      | reject =>
        simp only [loopF, hlt, if_true, hAdd, hDel, hne, if_false, hnlt, reduceIte,
          hme1, hfind2, hme2, hex1, hex2]
        rw [hposfin]
        simp [chosen]
    | some j =>
      have hjgt : P.length < j := by
        refine findTok_other_gt rfl rfl (by decide) ?_ hPdel (hsuf2 ▸ hfd)
        exact tokAt_of_ne_take _ (by decide) (by decide)
      have hDel : startOf delBeginTok t c = j := by
        unfold startOf; rw [hfd]
      have hne : ¬ (P.length = j) := by omega
      have hnlt : ¬ (j < P.length) := by omega
      cases d with
      | quit =>
        simp only [loopF, hlt, if_true, hAdd, hDel, hne, if_false, hnlt,
          reduceIte]
        simp [hme1, hfind2]
      | accept =>
        simp only [loopF, hlt, if_true, hAdd, hDel, hne, if_false, hnlt, reduceIte,
          hme1, hfind2, hme2, hex1, hex2]
        rw [hposfin]
        simp [chosen]
      | reject =>
        simp only [loopF, hlt, if_true, hAdd, hDel, hne, if_false, hnlt, reduceIte,
          hme1, hfind2, hme2, hex1, hex2]
        rw [hposfin]
        simp [chosen]

lemma bmTok_ne_nil (k : Kind) : bmTok k ≠ [] := by
  cases k <;> simp [bmTok, addBeginTok, delBeginTok]

lemma renderSeg_ne_nil (g : Seg) : renderSeg g ≠ [] := by
  intro h
  have hlen := congrArg List.length h
  simp only [renderSeg, List.length_append, List.length_nil] at hlen
  have hb : 0 < (bmTok g.kind).length := List.length_pos.mpr (bmTok_ne_nil g.kind)
  omega

lemma noLeadWs_bmTok (k : Kind) : noLeadWs (bmTok k) = true := by
  cases k <;> decide

lemma noLeadWs_emTok (k : Kind) : noLeadWs (emTok k) = true := by
  cases k <;> decide

lemma noLeadWs_renderSeg {g : Seg} (h : noLeadWs g.plain = true) :
    noLeadWs (renderSeg g) = true := by
  by_cases hp : g.plain = []
  · have h' := noLeadWs_append_of_ne_nil (noLeadWs_bmTok g.kind) (bmTok_ne_nil g.kind)
      (g.wsB ++ (g.pay ++ (emTok g.kind ++ g.wsE)))
    simpa [renderSeg, hp, List.append_assoc] using h'
  · have h' := noLeadWs_append_of_ne_nil h hp
      (bmTok g.kind ++ (g.wsB ++ (g.pay ++ (emTok g.kind ++ g.wsE))))
    simpa [renderSeg, List.append_assoc] using h'

lemma noLeadWs_renderSegs_append {gs : List Seg} {K : List Char}
    (hpl : ∀ g ∈ gs, noLeadWs g.plain = true) (hK : noLeadWs K = true) :
    noLeadWs (renderSegs gs ++ K) = true := by
  cases gs with
  | nil => simpa [renderSegs] using hK
  | cons g gs =>
    have h' := noLeadWs_append_of_ne_nil (noLeadWs_renderSeg (hpl g (by simp)))
      (renderSeg_ne_nil g) (renderSegs gs ++ K)
    simpa [renderSegs, List.append_assoc] using h'

lemma loop_segs : ∀ (gs : List Seg) (ds : List Decision) (t : List Char) (c : Nat)
    (acc : List Char) (K : List Char) (fuel : Nat),
    (∀ g ∈ gs, WFseg g = true) →
    (∀ g ∈ gs.tail, noLeadWs g.plain = true) →
    (gs = [] ∨ noLeadWs K = true) →
    gs.length ≤ ds.length → (∀ d ∈ ds.take gs.length, d ≠ .quit) →
    t.drop c = renderSegs gs ++ K →
    t.length ≤ fuel + c →
    loopF fuel t c c acc ds =
      loopF (fuel - gs.length) t (c + (renderSegs gs).length)
        (c + (renderSegs gs).length) (acc ++ resolvedSegs gs ds)
        (ds.drop gs.length) := by
  intro gs
  induction gs with
  | nil =>
    intro ds t c acc K fuel _ _ _ _ _ _ _
    simp [renderSegs, resolvedSegs]
  | cons g gs ih =>
    intro ds t c acc K fuel hwf hpl hKor hlen hq hsuf hfuel
    cases ds with
    | nil => simp at hlen
    | cons d ds =>
      have hK : noLeadWs K = true := hKor.resolve_left (by simp)
      have hwfg : WFseg g = true := hwf g (by simp)
      have hwfgs : ∀ x ∈ gs, WFseg x = true := fun x hx => hwf x (by simp [hx])
      have hplgs : ∀ x ∈ gs, noLeadWs x.plain = true := by
        simpa using hpl
      have hKs : noLeadWs (renderSegs gs ++ K) = true :=
        noLeadWs_renderSegs_append hplgs hK
      have hsuf1 : t.drop c = renderSeg g ++ (renderSegs gs ++ K) := by
        simpa [renderSegs, List.append_assoc] using hsuf
      have hcne : renderSeg g ++ (renderSegs gs ++ K) ≠ [] := fun h =>
        renderSeg_ne_nil g (List.append_eq_nil.mp h).1
      have hlt : c < t.length := lt_length_of_drop_ne_nil hsuf1 hcne
      obtain ⟨f, rfl⟩ : ∃ f, fuel = f + 1 := ⟨fuel - 1, by omega⟩
      have hd : d ≠ .quit := hq d (by simp)
      rw [loop_step hwfg hKs hsuf1 f acc d ds, if_neg hd]
      have hsuf' : t.drop (c + (renderSeg g).length) = renderSegs gs ++ K := by
        rw [drop_shift hsuf1, List.drop_left]
      have hlen' : gs.length ≤ ds.length := by simpa using hlen
      have hq' : ∀ d' ∈ ds.take gs.length, d' ≠ .quit := by
        intro d' hd'
        exact hq d' (by simp [hd'])
      have hpl' : ∀ x ∈ gs.tail, noLeadWs x.plain = true := fun x hx =>
        hplgs x (List.mem_of_mem_tail hx)
      have hrg : 1 ≤ (renderSeg g).length :=
        List.length_pos.mpr (renderSeg_ne_nil g)
      have hfuel' : t.length ≤ f + (c + (renderSeg g).length) := by omega
      rw [ih ds t (c + (renderSeg g).length)
        (acc ++ (g.plain ++ chosen g.kind d g.pay)) K f hwfgs hpl'
        (Or.inr hK) hlen' hq' hsuf' hfuel']
      simp [renderSegs, resolvedSegs, List.append_assoc, List.length_append,
        Nat.succ_sub_succ, Nat.add_assoc]

lemma matchEnd_some_ge {tok s : List Char} {e : Nat}
    (h : matchEnd tok s = some e) : tok.length ≤ e := by
  unfold matchEnd at h
  cases hf : findTok tok s with
  | none => rw [hf] at h; simp at h
  | some i =>
    rw [hf] at h
    simp only [Option.map_some', Option.some.injEq] at h
    omega

lemma loop_fuel : ∀ (fuel : Nat) (t : List Char) (c : Nat) (acc : List Char)
    (ds : List Decision), t.length ≤ fuel + c →
    isFuelOut (loopF fuel t c c acc ds) = false := by
  intro fuel
  induction fuel with
  | zero =>
    intro t c acc ds hle
    rw [loop_done (by omega)]
    rfl
  | succ f ih =>
    intro t c acc ds hle
    by_cases hc : c < t.length
    · simp only [loopF, hc, if_true]
      generalize startOf delBeginTok t c = D
      generalize startOf addBeginTok t c = A
      by_cases h1 : A = D
      · simp [h1, isFuelOut]
      · simp only [h1, if_false]
        by_cases h2 : D < A
        · simp only [h2, if_true]
          cases hm1 : matchEnd delBeginTok (t.drop (D + c)) with
          | none => simp [hm1, isFuelOut]
          | some e1 =>
            simp only [hm1]
            cases hm2 : findTok delEndTok (t.drop (e1 + (D + c))) with
            | none => simp [hm2, isFuelOut]
            | some s2 =>
              simp only [hm2]
              cases ds with
              | nil => simp [isFuelOut]
              | cons d rest =>
                cases d with
                | quit => simp [isFuelOut]
                | accept =>
                  cases hm3 : matchEnd delEndTok (t.drop (e1 + (D + c))) with
                  | none => simp [hm3, isFuelOut]
                  | some e2 =>
                    have he2 : delEndTok.length ≤ e2 := matchEnd_some_ge hm3
                    have h10 : delEndTok.length = 10 := by decide
                    simp only [hm3]
                    exact ih t (e2 + (e1 + (D + c))) _ rest (by omega)
                | reject =>
                  cases hm3 : matchEnd delEndTok (t.drop (e1 + (D + c))) with
                  | none => simp [hm3, isFuelOut]
                  | some e2 =>
                    have he2 : delEndTok.length ≤ e2 := matchEnd_some_ge hm3
                    have h10 : delEndTok.length = 10 := by decide
                    simp only [hm3]
                    exact ih t (e2 + (e1 + (D + c))) _ rest (by omega)
        · simp only [h2, if_false]
          cases hm1 : matchEnd addBeginTok (t.drop (A + c)) with
          | none => simp [hm1, isFuelOut]
          | some e1 =>
            simp only [hm1]
            cases hm2 : findTok addEndTok (t.drop (e1 + (A + c))) with
            | none => simp [hm2, isFuelOut]
            | some s2 =>
              simp only [hm2]
              cases ds with
              | nil => simp [isFuelOut]
              | cons d rest =>
                cases d with
                | quit => simp [isFuelOut]
                | accept =>
                  cases hm3 : matchEnd addEndTok (t.drop (e1 + (A + c))) with
                  | none => simp [hm3, isFuelOut]
                  | some e2 =>
                    have he2 : addEndTok.length ≤ e2 := matchEnd_some_ge hm3
                    have h10 : addEndTok.length = 10 := by decide
                    simp only [hm3]
                    exact ih t (e2 + (e1 + (A + c))) _ rest (by omega)
                | reject =>
                  cases hm3 : matchEnd addEndTok (t.drop (e1 + (A + c))) with
                  | none => simp [hm3, isFuelOut]
                  | some e2 =>
                    have he2 : addEndTok.length ≤ e2 := matchEnd_some_ge hm3
                    have h10 : addEndTok.length = 10 := by decide
                    simp only [hm3]
                    exact ih t (e2 + (e1 + (A + c))) _ rest (by omega)
    · rw [loop_done hc]
      rfl

lemma findTok_eq_none_of_hasTok_false {tok s : List Char}
    (h : hasTok tok s = false) : findTok tok s = none := by
  cases hf : findTok tok s with
  | none => rfl
  | some i =>
    simp only [hasTok, hf, Option.isSome_some] at h
    exact absurd h (by simp)

lemma loop_step_malformed {t : List Char} {c : Nat} {k : Kind} {P bad : List Char}
    (hPws : noLeadWs P = true) (hPdel : hasTok delBeginTok P = false)
    (hPadd : hasTok addBeginTok P = false) (hBadWs : noLeadWs bad = true)
    (hBadEm : hasTok (emTok k) bad = false)
    (hsuf : t.drop c = P ++ (bmTok k ++ bad))
    (fuel : Nat) (acc : List Char) (ds : List Decision) :
    loopF (fuel + 1) t c c acc ds = .scanFail := by
  cases k with
  | deletion =>
    have hBadEm' : hasTok delEndTok bad = false := by simpa [emTok] using hBadEm
    have hsuf2 : t.drop c = P ++ (delBeginTok ++ bad) := by
      simpa only [bmTok] using hsuf
    have hlt : c < t.length := by
      refine lt_length_of_drop_ne_nil hsuf2 ?_
      simp [delBeginTok]
    have hlenS : (t.drop c).length = P.length + (12 + bad.length) := by
      rw [hsuf2]
      simp only [List.length_append, delBeginTok, List.length_cons, List.length_nil]
    have hPlt : P.length < t.length := by
      rw [List.length_drop] at hlenS
      omega
    have hdel : findTok delBeginTok (t.drop c) = some P.length := by
      rw [hsuf2]; exact findTok_exact rfl (by decide) hPdel
    have hDel : startOf delBeginTok t c = P.length := by
      unfold startOf; rw [hdel]
    have hdropbm : t.drop (P.length + c) = delBeginTok ++ bad := by
      rw [Nat.add_comm P.length c, drop_shift hsuf2 P.length, List.drop_left]
    have hme1 : matchEnd delBeginTok (t.drop (P.length + c)) =
        some delBeginTok.length := by
      rw [hdropbm]
      unfold matchEnd
      rw [findTok_self_append]
      simp [List.drop_left, wsRun_of_noLeadWs hBadWs]
    have hdroppay : t.drop (delBeginTok.length + (P.length + c)) = bad := by
      rw [show delBeginTok.length + (P.length + c) = c + (P.length + delBeginTok.length)
        by omega, drop_shift hsuf2, drop_left2]
    have hfind2 : findTok delEndTok (t.drop (delBeginTok.length + (P.length + c))) =
        none := by
      rw [hdroppay]; exact findTok_eq_none_of_hasTok_false hBadEm'
    cases hfa : findTok addBeginTok (t.drop c) with
    | none =>
      have hAdd : startOf addBeginTok t c = t.length := by
        unfold startOf; rw [hfa]
      have hne : ¬ (t.length = P.length) := by omega
      simp only [loopF, hlt, if_true, hDel, hAdd, hne, if_false, hPlt, reduceIte,
        hme1, hfind2]
    | some j =>
      have hjgt : P.length < j := by
        refine findTok_other_gt rfl rfl (by decide) ?_ hPadd (hsuf2 ▸ hfa)
        exact tokAt_of_ne_take _ (by decide) (by decide)
      have hAdd : startOf addBeginTok t c = j := by
        unfold startOf; rw [hfa]
      have hne : ¬ (j = P.length) := by omega
      simp only [loopF, hlt, if_true, hDel, hAdd, hne, if_false, hjgt, reduceIte,
        hme1, hfind2]
  | addition =>
    have hBadEm' : hasTok addEndTok bad = false := by simpa [emTok] using hBadEm
    have hsuf2 : t.drop c = P ++ (addBeginTok ++ bad) := by
      simpa only [bmTok] using hsuf
    have hlt : c < t.length := by
      refine lt_length_of_drop_ne_nil hsuf2 ?_
      simp [addBeginTok]
    have hlenS : (t.drop c).length = P.length + (12 + bad.length) := by
      rw [hsuf2]
      simp only [List.length_append, addBeginTok, List.length_cons, List.length_nil]
    have hPlt : P.length < t.length := by
      rw [List.length_drop] at hlenS
      omega
    have hadd : findTok addBeginTok (t.drop c) = some P.length := by
      rw [hsuf2]; exact findTok_exact rfl (by decide) hPadd
    have hAdd : startOf addBeginTok t c = P.length := by
      unfold startOf; rw [hadd]
    have hdropbm : t.drop (P.length + c) = addBeginTok ++ bad := by
      rw [Nat.add_comm P.length c, drop_shift hsuf2 P.length, List.drop_left]
    have hme1 : matchEnd addBeginTok (t.drop (P.length + c)) =
        some addBeginTok.length := by
      rw [hdropbm]
      unfold matchEnd
      rw [findTok_self_append]
      simp [List.drop_left, wsRun_of_noLeadWs hBadWs]
    have hdroppay : t.drop (addBeginTok.length + (P.length + c)) = bad := by
      rw [show addBeginTok.length + (P.length + c) = c + (P.length + addBeginTok.length)
        by omega, drop_shift hsuf2, drop_left2]
    have hfind2 : findTok addEndTok (t.drop (addBeginTok.length + (P.length + c))) =
        none := by
      rw [hdroppay]; exact findTok_eq_none_of_hasTok_false hBadEm'
    cases hfd : findTok delBeginTok (t.drop c) with
    | none =>
      have hDel : startOf delBeginTok t c = t.length := by
        unfold startOf; rw [hfd]
      have hne : ¬ (P.length = t.length) := by omega
      have hnlt : ¬ (t.length < P.length) := by omega
      simp only [loopF, hlt, if_true, hAdd, hDel, hne, if_false, hnlt, reduceIte,
        hme1, hfind2]
    | some j =>
      have hjgt : P.length < j := by
        refine findTok_other_gt rfl rfl (by decide) ?_ hPdel (hsuf2 ▸ hfd)
        exact tokAt_of_ne_take _ (by decide) (by decide)
      have hDel : startOf delBeginTok t c = j := by
        unfold startOf; rw [hfd]
      have hne : ¬ (P.length = j) := by omega
      have hnlt : ¬ (j < P.length) := by omega
      simp only [loopF, hlt, if_true, hAdd, hDel, hne, if_false, hnlt, reduceIte,
        hme1, hfind2]

lemma loop_finish {trailing t : List Char} {c : Nat} {acc : List Char}
    {ds : List Decision} {fuel : Nat} (hsuf : t.drop c = trailing)
    (h1 : hasTok delBeginTok trailing = false)
    (h2 : hasTok addBeginTok trailing = false)
    (hfuel : t.length ≤ fuel + c) :
    loopF fuel t c c acc ds = .written (acc ++ trailing) ds := by
  by_cases hc : c < t.length
  · obtain ⟨f, rfl⟩ : ∃ f, fuel = f + 1 := ⟨fuel - 1, by omega⟩
    rw [loop_tie hc (hsuf ▸ findTok_eq_none_of_hasTok_false h1)
      (hsuf ▸ findTok_eq_none_of_hasTok_false h2), hsuf]
  · rw [loop_done hc]
    have : trailing = [] := by
      rw [← hsuf]
      exact List.drop_eq_nil_of_le (by omega)
    simp [this]

lemma cmdSubF_nil {t0 : Char} {trest : List Char} (n : Nat) :
    cmdSubF n (t0 :: trest) [] = [] := by
  cases n with
  | zero => rfl
  | succ m => simp [cmdSubF, findTok, tokAt]

lemma cmdSub_unwrap {t0 : Char} {trest w : List Char} (hw : '\x7d' ∉ w) :
    cmdSub (t0 :: trest) ((t0 :: trest) ++ (w ++ ['\x7d'])) = w := by
  have hfind : findTok (t0 :: trest) ((t0 :: trest) ++ (w ++ ['\x7d'])) = some 0 :=
    findTok_self_append _ _
  have hdrop : ((t0 :: trest) ++ (w ++ ['\x7d'])).drop (0 + (t0 :: trest).length) =
      w ++ ['\x7d'] := by
    simp only [Nat.zero_add]
    exact List.drop_left _ _
  have hbrace : findTok ['\x7d'] (w ++ ['\x7d']) = some w.length := by
    have h : findTok ['\x7d'] (w ++ (['\x7d'] ++ [])) = some w.length :=
      findTok_exact rfl (by simp) (hasTok_false_of_not_mem hw)
    simpa using h
  have hex : listExtract ((t0 :: trest) ++ (w ++ ['\x7d'])) (0 + (t0 :: trest).length)
      (0 + (t0 :: trest).length + w.length) = w := by
    unfold listExtract
    rw [show 0 + (t0 :: trest).length + w.length - (0 + (t0 :: trest).length) =
      w.length by omega, hdrop]
    exact List.take_left w ['\x7d']
  have hrest : ((t0 :: trest) ++ (w ++ ['\x7d'])).drop
      (0 + (t0 :: trest).length + w.length + 1) = [] := by
    refine List.drop_eq_nil_of_le ?_
    simp only [List.length_append, List.length_cons, List.length_nil]
    omega
  obtain ⟨n, hn⟩ : ∃ n, ((t0 :: trest) ++ (w ++ ['\x7d'])).length = n + 1 :=
    ⟨trest.length + (w.length + 1), by
      simp only [List.length_append, List.length_cons, List.length_nil]
      omega⟩
  unfold cmdSub
  rw [hn, cmdSubF, hfind]
  simp only [hdrop, hbrace, hex, hrest, cmdSubF_nil, List.take_zero,
    List.nil_append, List.append_nil]

lemma findLastTok_none {t0 : Char} {trest : List Char} :
    ∀ {s : List Char}, t0 ∉ s → findLastTok (t0 :: trest) s = none := by
  intro s
  induction s with
  | nil => intro _; simp [findLastTok, tokAt]
  | cons c rest ih =>
    intro h
    have hcr : t0 ∉ rest := fun hm => h (List.mem_cons_of_mem c hm)
    have hc : ¬ (t0 = c) := fun he => h (he ▸ List.mem_cons_self c rest)
    rw [findLastTok, ih hcr]
    simp [tokAt, hc]

lemma findLastTok_unique {t0 : Char} {trest b : List Char}
    (hmem : t0 ∉ trest) (hb : t0 ∉ b) :
    ∀ (x : List Char), t0 ∉ x →
      findLastTok (t0 :: trest) (x ++ ((t0 :: trest) ++ b)) = some x.length := by
  intro x
  induction x with
  | nil =>
    intro _
    have hnone : findLastTok (t0 :: trest) (trest ++ b) = none :=
      findLastTok_none (by simp [hmem, hb])
    have hAt : tokAt (t0 :: trest) (t0 :: (trest ++ b)) = true := by
      have h2 := tokAt_append_self (t0 :: trest) b
      simpa [List.cons_append] using h2
    simp only [List.nil_append, List.cons_append]
    rw [findLastTok, hnone, hAt]
    simp
  | cons c x ih =>
    intro h
    have hcx : t0 ∉ x := fun hm => h (List.mem_cons_of_mem c hm)
    have hprev := ih hcx
    simp only [List.cons_append] at hprev ⊢
    rw [findLastTok, hprev]
    simp

lemma preambleSubF_none {s : List Char} (h : preambleMatch s = none) :
    ∀ n, preambleSubF n s = s := by
  intro n
  cases n with
  | zero => rfl
  | succ m => simp [preambleSubF, h]

lemma preambleSub_no_match {s : List Char} (h : preambleMatch s = none) :
    preambleSub s = s :=
  preambleSubF_none h s.length

lemma hasTok_preambleStart_false {A : List Char} (hA : '%' ∉ A) :
    hasTok preambleStartTok A = false := by
  have hshape : preambleStartTok = '%' :: preambleStartTok.tail := by decide
  rw [hshape]
  exact hasTok_false_of_not_mem hA

lemma preambleSub_single {A mid B : List Char} (hA : '%' ∉ A) (hmid : '%' ∉ mid)
    (hB : '%' ∉ B) :
    preambleSub (A ++ (preambleStartTok ++ (mid ++ (preambleEndTok ++ B)))) =
      A ++ B := by
  have hstart : preambleStartTok = '%' :: preambleStartTok.tail := by decide
  have hend : preambleEndTok = '%' :: preambleEndTok.tail := by decide
  have hfind : findTok preambleStartTok
      (A ++ (preambleStartTok ++ (mid ++ (preambleEndTok ++ B)))) = some A.length :=
    findTok_exact hstart (by decide) (hasTok_preambleStart_false hA)
  have hdropmid : (A ++ (preambleStartTok ++ (mid ++ (preambleEndTok ++ B)))).drop
      (A.length + preambleStartTok.length) = mid ++ (preambleEndTok ++ B) :=
    drop_left2 A preambleStartTok (mid ++ (preambleEndTok ++ B))
  have hlast : findLastTok preambleEndTok (mid ++ (preambleEndTok ++ B)) =
      some mid.length := by
    rw [hend]
    exact findLastTok_unique (by decide) hB mid hmid
  have hmatch : preambleMatch (A ++ (preambleStartTok ++ (mid ++ (preambleEndTok ++ B)))) =
      some (A.length,
        A.length + preambleStartTok.length + mid.length + preambleEndTok.length) := by
    unfold preambleMatch
    rw [hfind]
    simp only [hdropmid, hlast]
  have htakeA : (A ++ (preambleStartTok ++ (mid ++ (preambleEndTok ++ B)))).take
      A.length = A := List.take_left A _
  have hdropB : (A ++ (preambleStartTok ++ (mid ++ (preambleEndTok ++ B)))).drop
      (A.length + preambleStartTok.length + mid.length + preambleEndTok.length) =
      B := by
    have h1 : A ++ (preambleStartTok ++ (mid ++ (preambleEndTok ++ B))) =
        (A ++ (preambleStartTok ++ (mid ++ preambleEndTok))) ++ B := by
      simp [List.append_assoc]
    have h2 : (A ++ (preambleStartTok ++ (mid ++ preambleEndTok))).length =
        A.length + preambleStartTok.length + mid.length + preambleEndTok.length := by
      simp only [List.length_append]
      omega
    rw [h1, ← h2, List.drop_left]
  have hmB : preambleMatch B = none := by
    unfold preambleMatch
    rw [findTok_eq_none_of_hasTok_false (hasTok_preambleStart_false hB)]
  have h42 : preambleStartTok.length = 42 := by decide
  obtain ⟨n, hn⟩ : ∃ n,
      (A ++ (preambleStartTok ++ (mid ++ (preambleEndTok ++ B)))).length = n + 1 :=
    ⟨(A ++ (preambleStartTok ++ (mid ++ (preambleEndTok ++ B)))).length - 1, by
      simp only [List.length_append]
      omega⟩
  unfold preambleSub
  rw [hn, preambleSubF, hmatch]
  simp only [htakeA, hdropB, preambleSubF_none hmB]

lemma begin_toks_distinct {s : List Char} {i : Nat}
    (hd : findTok delBeginTok s = some i) (ha : findTok addBeginTok s = some i) :
    False := by
  have t1 := tokAt_take (findTok_some_tokAt hd)
  have t2 := tokAt_take (findTok_some_tokAt ha)
  rw [show addBeginTok.length = delBeginTok.length from by decide] at t2
  exact absurd (t1.symm.trans t2) (by decide)

lemma renderSegs_append (xs ys : List Seg) :
    renderSegs (xs ++ ys) = renderSegs xs ++ renderSegs ys := by
  induction xs with
  | nil => simp [renderSegs]
  | cons g gs ih => simp [renderSegs, ih, List.append_assoc]

lemma renderSegs_length_ge (gs : List Seg) : gs.length ≤ (renderSegs gs).length := by
  induction gs with
  | nil => simp [renderSegs]
  | cons g gs ih =>
    have hg := List.length_pos.mpr (renderSeg_ne_nil g)
    simp only [renderSegs, List.length_append, List.length_cons]
    omega

lemma WFplains_parts {gs1 : List Seg} {g : Seg} {gs2 : List Seg}
    (h : WFplains (gs1 ++ g :: gs2) = true) :
    (∀ x ∈ gs1.tail, noLeadWs x.plain = true) ∧
    (gs1 = [] ∨ noLeadWs g.plain = true) ∧
    (∀ x ∈ gs2, noLeadWs x.plain = true) := by
  cases gs1 with
  | nil =>
    simp only [List.nil_append, WFplains, List.all_eq_true] at h
    exact ⟨fun x hx => absurd hx (by simp), Or.inl rfl, fun x hx => h x hx⟩
  | cons a rest =>
    simp only [List.cons_append, WFplains, List.all_append, List.all_cons,
      Bool.and_eq_true, List.all_eq_true] at h
    obtain ⟨h1, h2, h3⟩ := h
    exact ⟨fun x hx => h1 x (by simpa using hx), Or.inr h2, fun x hx => h3 x hx⟩

lemma findTok_some_lt_length {tok t : List Char} {h i : Nat}
    (htok : tok ≠ []) (hf : findTok tok (t.drop h) = some i) : i < t.length := by
  have hle := findTok_some_le hf
  have hlen : (t.drop h).length = t.length - h := List.length_drop h t
  have htl : 1 ≤ tok.length := List.length_pos.mpr htok
  omega

/-- C3 counterexample: resolving `"A \DIFaddbegin \DIFadd{new} \DIFaddend B"`
with the single decision Accept does not produce `"A  new  B"` (two spaces
on each side of `new`), contrary to the claim: the `\s*` of the marker
patterns consumes the space after each marker token. -/
theorem claim3_counterexample :
    reviseText ("A \\DIFaddbegin \\DIFadd\x7bnew\x7d \\DIFaddend B".toList)
      [Decision.accept] ≠
      RunResult.written ("A  new  B".toList) [] := by
  decide

/-- C3 (amended): resolving the buffer
`"A \DIFaddbegin \DIFadd{new} \DIFaddend B"` with the single decision
Accept yields exactly `"A new B"` with one space on each side of `new`:
the begin-marker pattern `\DIFaddbegin\s*` consumes the space before the
payload, the payload contributes `"new "` (its own trailing space
survives the non-greedy unwrap), and the end-marker pattern
`\DIFaddend\s*` consumes the space before `B`. -/
theorem claim3_accept_addition_scenario :
    reviseText ("A \\DIFaddbegin \\DIFadd\x7bnew\x7d \\DIFaddend B".toList)
      [Decision.accept] =
      RunResult.written ("A new B".toList) [] := by
  decide

/-- C4: for every buffer containing none of the four marker tokens,
`resolve` (the scan loop on the preamble-stripped text) returns the input
buffer unchanged and consumes no decision (the full decision list is
returned untouched); in particular it is idempotent on marker-free
buffers such as its own output. -/
theorem claim4_no_markers_identity (t : List Char) (ds : List Decision)
    (h1 : hasTok delBeginTok t = false) (h2 : hasTok addBeginTok t = false)
    (h3 : hasTok delEndTok t = false) (h4 : hasTok addEndTok t = false) :
    reviseText t ds = RunResult.written t ds := by
  have h : loopF t.length t 0 0 [] ds = RunResult.written ([] ++ t) ds :=
    loop_finish (List.drop_zero t) h1 h2 (by omega)
  simpa [reviseText] using h

/-- C4 witness at a concrete marker-free buffer and decision list. -/
theorem claim4_witness :
    (hasTok delBeginTok ("hello world".toList) = false ∧
      hasTok addBeginTok ("hello world".toList) = false ∧
      hasTok delEndTok ("hello world".toList) = false ∧
      hasTok addEndTok ("hello world".toList) = false) ∧
    reviseText ("hello world".toList) [Decision.accept] =
      RunResult.written ("hello world".toList) [Decision.accept] :=
  ⟨⟨by decide, by decide, by decide, by decide⟩,
    claim4_no_markers_identity ("hello world".toList) [Decision.accept]
      (by decide) (by decide) (by decide) (by decide)⟩

/-- C5: the scanner classifies the next span by whichever of
AdditionBegin and DeletionBegin occurs nearest after the offset (a
missing occurrence counting as at end of buffer, which is how the code
literally encodes it), and it reports end-of-buffer — `none` — exactly
when the two computed positions tie, which happens exactly when neither
begin marker occurs. -/
theorem claim5_scanner_classification (t : List Char) (h : Nat) :
    scanKind t h = nextSpanKindSpec (findTok delBeginTok (t.drop h))
        (findTok addBeginTok (t.drop h)) ∧
    (scanKind t h).isNone = ((findTok delBeginTok (t.drop h)).isNone &&
      (findTok addBeginTok (t.drop h)).isNone) := by
  cases hfd : findTok delBeginTok (t.drop h) with
  | none =>
    cases hfa : findTok addBeginTok (t.drop h) with
    | none => simp [scanKind, startOf, nextSpanKindSpec, hfd, hfa]
    | some j =>
      have hj : j < t.length := findTok_some_lt_length (by decide) hfa
      have hne : ¬ (j = t.length) := by omega
      have hnlt : ¬ (t.length < j) := by omega
      simp [scanKind, startOf, nextSpanKindSpec, hfd, hfa, hne, hnlt]
  | some i =>
    cases hfa : findTok addBeginTok (t.drop h) with
    | none =>
      have hi : i < t.length := findTok_some_lt_length (by decide) hfd
      have hne : ¬ (t.length = i) := by omega
      simp [scanKind, startOf, nextSpanKindSpec, hfd, hfa, hne, hi]
    | some j =>
      have hne : ¬ (j = i) := fun he => begin_toks_distinct hfd (he ▸ hfa)
      by_cases hij : i < j
      · simp [scanKind, startOf, nextSpanKindSpec, hfd, hfa, hne, hij]
      · simp [scanKind, startOf, nextSpanKindSpec, hfd, hfa, hne, hij]

/-- C9 counterexample: a file whose only marker is a lone end marker
(`\DIFdelend`) contains a marker in the sense of the data model, yet the
candidate test excludes it, because only the two begin markers are
searched for. -/
theorem claim9_counterexample :
    containsAnyMarker ("x \\DIFdelend y".toList) = true ∧
      hasDiffMarkers ("x \\DIFdelend y".toList) = false := by
  constructor <;> decide

/-- C9 (amended): a file is selected as a candidate exactly when, after
preamble stripping, its text contains at least one begin marker
(AdditionBegin or DeletionBegin); end markers alone do not qualify. -/
theorem claim9_candidate_iff_begin_marker (raw : List Char) :
    hasDiffMarkers raw = (hasTok delBeginTok (preambleSub raw) ||
      hasTok addBeginTok (preambleSub raw)) := by
  cases hfd : findTok delBeginTok (preambleSub raw) with
  | none =>
    cases hfa : findTok addBeginTok (preambleSub raw) with
    | none => simp [hasDiffMarkers, startOf, hasTok, hfd, hfa]
    | some j =>
      have hfa0 : findTok addBeginTok ((preambleSub raw).drop 0) = some j := by
        simpa using hfa
      have hj : j < (preambleSub raw).length :=
        findTok_some_lt_length (t := preambleSub raw) (h := 0) (by decide) hfa0
      have hne : ¬ (j = (preambleSub raw).length) := by omega
      simp [hasDiffMarkers, startOf, hasTok, hfd, hfa, hne]
  | some i =>
    cases hfa : findTok addBeginTok (preambleSub raw) with
    | none =>
      have hfd0 : findTok delBeginTok ((preambleSub raw).drop 0) = some i := by
        simpa using hfd
      have hi : i < (preambleSub raw).length :=
        findTok_some_lt_length (t := preambleSub raw) (h := 0) (by decide) hfd0
      have hne : ¬ ((preambleSub raw).length = i) := by omega
      simp [hasDiffMarkers, startOf, hasTok, hfd, hfa, hne]
    | some j =>
      have hne : ¬ (j = i) := fun he => begin_toks_distinct hfd (he ▸ hfa)
      simp [hasDiffMarkers, startOf, hasTok, hfd, hfa, hne]

/-- C10: the resolution scan loop always terminates: the fuel
`filetext.length` given to the loop by `reviseText` is never exhausted,
because from equal head and tail cursors every iteration either stops or
re-enters with both cursors advanced strictly past the scanned span's
end marker (by at least the end-marker token length). -/
theorem claim10_loop_terminates (t : List Char) (ds : List Decision) :
    isFuelOut (reviseText t ds) = false :=
  loop_fuel t.length t 0 [] ds (by omega)

/-- C1: for every well-formed buffer — spans in document order separated
by plain text, each marker token optionally followed by the whitespace
run that its pattern's trailing `\s*` absorbs (the `wsB`/`wsE` fields of
`Seg`), as generated by `render` under `WFdoc` — and every sequence of
Accept/Reject decisions covering its spans, the output of resolution is
exactly the concatenation, in document order, of each plain-text segment
copied verbatim plus, per span, its unwrapped payload when the decision
is Accept on an addition or Reject on a deletion, and nothing when it is
Accept on a deletion or Reject on an addition (`resolvedSegs`/`chosen`);
one decision is consumed per span. -/
theorem claim1_resolution_reconstructs (gs : List Seg) (trailing : List Char)
    (ds : List Decision) (hwf : WFdoc gs trailing = true)
    (hlen : gs.length ≤ ds.length) (hq : ∀ d ∈ ds, d ≠ Decision.quit) :
    reviseText (render gs trailing) ds =
      RunResult.written (resolvedSegs gs ds ++ trailing) (ds.drop gs.length) := by
  simp only [WFdoc, Bool.and_eq_true, Bool.not_eq_true'] at hwf
  obtain ⟨⟨⟨⟨hall, hplw⟩, hemp⟩, htd⟩, hta⟩ := hwf
  have hall' : ∀ x ∈ gs, WFseg x = true := by
    simpa only [List.all_eq_true] using hall
  cases gs with
  | nil =>
    unfold reviseText render
    have hfin : loopF (renderSegs ([] : List Seg) ++ trailing).length
        (renderSegs ([] : List Seg) ++ trailing) 0 0 [] ds =
        RunResult.written ([] ++ trailing) ds :=
      loop_finish (by simp [renderSegs]) htd hta (by omega)
    simpa [resolvedSegs] using hfin
  | cons g gs' =>
    have htws : noLeadWs trailing = true := by simpa using hemp
    have hwfg : WFseg g = true := hall' g (by simp)
    have hplgs : ∀ x ∈ gs', noLeadWs x.plain = true := by
      simp only [WFplains, List.all_eq_true] at hplw
      exact hplw
    have hK0 : noLeadWs (renderSegs gs' ++ trailing) = true :=
      noLeadWs_renderSegs_append hplgs htws
    cases ds with
    | nil => simp at hlen
    | cons d ds =>
      unfold reviseText render
      have hsuf0 : (renderSegs (g :: gs') ++ trailing).drop 0 =
          renderSeg g ++ (renderSegs gs' ++ trailing) := by
        simp [renderSegs, List.append_assoc]
      have hrg : 1 ≤ (renderSeg g).length :=
        List.length_pos.mpr (renderSeg_ne_nil g)
      have hlt : 0 < (renderSegs (g :: gs') ++ trailing).length := by
        simp only [renderSegs, List.length_append]
        omega
      obtain ⟨f, hf⟩ : ∃ f, (renderSegs (g :: gs') ++ trailing).length = f + 1 :=
        ⟨(renderSegs (g :: gs') ++ trailing).length - 1, by omega⟩
      rw [hf, loop_step hwfg hK0 hsuf0 f [] d ds, if_neg (hq d (by simp))]
      have hsuf' : (renderSegs (g :: gs') ++ trailing).drop
          (0 + (renderSeg g).length) = renderSegs gs' ++ trailing := by
        rw [drop_shift hsuf0, List.drop_left]
      have hall'' : ∀ x ∈ gs', WFseg x = true := fun x hx => hall' x (by simp [hx])
      have hpl'' : ∀ x ∈ gs'.tail, noLeadWs x.plain = true := fun x hx =>
        hplgs x (List.mem_of_mem_tail hx)
      have hlen' : gs'.length ≤ ds.length := by simpa using hlen
      have hq' : ∀ d' ∈ ds.take gs'.length, d' ≠ Decision.quit := fun d' hd' =>
        hq d' (List.mem_cons_of_mem d (List.take_subset _ _ hd'))
      have hfuel' : (renderSegs (g :: gs') ++ trailing).length ≤
          f + (0 + (renderSeg g).length) := by omega
      rw [loop_segs gs' ds (renderSegs (g :: gs') ++ trailing)
        (0 + (renderSeg g).length) ([] ++ (g.plain ++ chosen g.kind d g.pay))
        trailing f hall'' hpl'' (Or.inr htws) hlen' hq' hsuf' hfuel']
      have hsufT : (renderSegs (g :: gs') ++ trailing).drop
          (0 + (renderSeg g).length + (renderSegs gs').length) = trailing := by
        rw [drop_shift hsuf', List.drop_left]
      have hge := renderSegs_length_ge gs'
      have hfin : loopF (f - gs'.length) (renderSegs (g :: gs') ++ trailing)
          (0 + (renderSeg g).length + (renderSegs gs').length)
          (0 + (renderSeg g).length + (renderSegs gs').length)
          (([] ++ (g.plain ++ chosen g.kind d g.pay)) ++ resolvedSegs gs' ds)
          (ds.drop gs'.length) =
          RunResult.written ((([] ++ (g.plain ++ chosen g.kind d g.pay)) ++
            resolvedSegs gs' ds) ++ trailing) (ds.drop gs'.length) :=
        loop_finish hsufT htd hta (by omega)
      rw [hfin]
      simp [resolvedSegs, List.append_assoc]

/-- C1 witness: the one-span buffer
`"A \DIFaddbegin \DIFadd{new} \DIFaddend B"` — whitespace after each
marker token — with an Accept decision. -/
theorem claim1_witness :
    (WFdoc [⟨"A ".toList, Kind.addition, " ".toList,
        "\\DIFadd\x7bnew\x7d ".toList, " ".toList⟩] ("B".toList) = true ∧
      (∀ d ∈ [Decision.accept], d ≠ Decision.quit)) ∧
    reviseText (render [⟨"A ".toList, Kind.addition, " ".toList,
        "\\DIFadd\x7bnew\x7d ".toList, " ".toList⟩] ("B".toList))
        [Decision.accept] =
      RunResult.written
        (resolvedSegs [⟨"A ".toList, Kind.addition, " ".toList,
          "\\DIFadd\x7bnew\x7d ".toList, " ".toList⟩]
          [Decision.accept] ++ "B".toList) [] :=
  ⟨⟨by decide, by decide⟩,
    claim1_resolution_reconstructs
      [⟨"A ".toList, Kind.addition, " ".toList, "\\DIFadd\x7bnew\x7d ".toList,
        " ".toList⟩] ("B".toList)
      [Decision.accept] (by decide) (by decide) (by decide)⟩

/-- C2 counterexample: with the single decision Quit at span 1, the
current file is NOT written back to disk — the run result is the
`sys.exit(0)` path, not a write — and the whole batch halts with nothing
written, contradicting the claimed write-back of spans 1..k-1. -/
theorem claim2_counterexample :
    isWritten (reviseText ("A \\DIFdelbegin \\DIFdel\x7bold\x7d \\DIFdelend B".toList)
        [Decision.quit]) = false ∧
      reviseBatch ["A \\DIFdelbegin \\DIFdel\x7bold\x7d \\DIFdelend B".toList]
        [Decision.quit] = BatchResult.halted [] := by
  constructor <;> decide

/-- C2 (amended): if the decision-provider returns Quit at span k, the
process exits (`generate_pdf`, `save_changes`, then `sys.exit(0)`)
without ever writing the current file: the in-memory resolutions of
spans 1..k-1 are discarded rather than written back, and no subsequent
span or file is processed — the batch run ends entirely with the current
and all later files untouched on disk. -/
theorem claim2_quit_exits_without_write (gs1 : List Seg) (g : Seg)
    (gs2 : List Seg) (trailing : List Char) (ds1 ds2 : List Decision)
    (hwf : WFdoc (gs1 ++ g :: gs2) trailing = true)
    (hlen : ds1.length = gs1.length) (hq : ∀ d ∈ ds1, d ≠ Decision.quit)
    (hpm : preambleMatch (render (gs1 ++ g :: gs2) trailing) = none) :
    reviseText (render (gs1 ++ g :: gs2) trailing)
        (ds1 ++ Decision.quit :: ds2) = RunResult.quitExit ∧
    ∀ fs, reviseBatch (render (gs1 ++ g :: gs2) trailing :: fs)
        (ds1 ++ Decision.quit :: ds2) = BatchResult.halted [] := by
  simp only [WFdoc, Bool.and_eq_true, Bool.not_eq_true'] at hwf
  obtain ⟨⟨⟨⟨hall, hplw⟩, hemp⟩, htd⟩, hta⟩ := hwf
  have hall' : ∀ x ∈ gs1 ++ g :: gs2, WFseg x = true := by
    simpa only [List.all_eq_true] using hall
  have hs1 : ∀ x ∈ gs1, WFseg x = true := fun x hx => hall' x (by simp [hx])
  have hsg : WFseg g = true := hall' g (by simp)
  obtain ⟨hp1, hp2, hp3⟩ := WFplains_parts hplw
  have htws : noLeadWs trailing = true := by
    cases gs1 <;> simpa using hemp
  have hK2 : noLeadWs (renderSegs gs2 ++ trailing) = true :=
    noLeadWs_renderSegs_append hp3 htws
  have hKor : gs1 = [] ∨
      noLeadWs (renderSeg g ++ (renderSegs gs2 ++ trailing)) = true := by
    cases gs1 with
    | nil => exact Or.inl rfl
    | cons a rest =>
      exact Or.inr (noLeadWs_append_of_ne_nil (noLeadWs_renderSeg
        (hp2.resolve_left (by simp))) (renderSeg_ne_nil g) _)
  have hmain : reviseText (render (gs1 ++ g :: gs2) trailing)
      (ds1 ++ Decision.quit :: ds2) = RunResult.quitExit := by
    unfold reviseText render
    have hshape : renderSegs (gs1 ++ g :: gs2) ++ trailing =
        renderSegs gs1 ++ (renderSeg g ++ (renderSegs gs2 ++ trailing)) := by
      rw [renderSegs_append]
      simp [renderSegs, List.append_assoc]
    have hsuf0 : (renderSegs (gs1 ++ g :: gs2) ++ trailing).drop 0 =
        renderSegs gs1 ++ (renderSeg g ++ (renderSegs gs2 ++ trailing)) := by
      simpa using hshape
    have htk : (ds1 ++ Decision.quit :: ds2).take gs1.length = ds1 := by
      rw [← hlen]
      exact List.take_left ds1 _
    have hq' : ∀ d ∈ (ds1 ++ Decision.quit :: ds2).take gs1.length,
        d ≠ Decision.quit := by
      rw [htk]; exact hq
    have hlen' : gs1.length ≤ (ds1 ++ Decision.quit :: ds2).length := by
      simp only [List.length_append, List.length_cons]
      omega
    rw [loop_segs gs1 (ds1 ++ Decision.quit :: ds2)
      (renderSegs (gs1 ++ g :: gs2) ++ trailing) 0 []
      (renderSeg g ++ (renderSegs gs2 ++ trailing))
      (renderSegs (gs1 ++ g :: gs2) ++ trailing).length
      hs1 hp1 hKor hlen' hq' hsuf0 (by omega)]
    have hdropds : (ds1 ++ Decision.quit :: ds2).drop gs1.length =
        Decision.quit :: ds2 := by
      rw [← hlen]
      exact List.drop_left ds1 _
    rw [hdropds]
    have hsuf1 : (renderSegs (gs1 ++ g :: gs2) ++ trailing).drop
        (0 + (renderSegs gs1).length) =
        renderSeg g ++ (renderSegs gs2 ++ trailing) := by
      rw [drop_shift hsuf0, List.drop_left]
    have hc1lt : 0 + (renderSegs gs1).length <
        (renderSegs (gs1 ++ g :: gs2) ++ trailing).length :=
      lt_length_of_drop_ne_nil hsuf1 (fun h =>
        renderSeg_ne_nil g (List.append_eq_nil.mp h).1)
    have hge := renderSegs_length_ge gs1
    obtain ⟨f, hf⟩ : ∃ f,
        (renderSegs (gs1 ++ g :: gs2) ++ trailing).length - gs1.length = f + 1 :=
      ⟨(renderSegs (gs1 ++ g :: gs2) ++ trailing).length - gs1.length - 1,
        by omega⟩
    rw [hf, loop_step hsg hK2 hsuf1 f ([] ++ resolvedSegs gs1
      (ds1 ++ Decision.quit :: ds2)) Decision.quit ds2]
    simp
  refine ⟨hmain, fun fs => ?_⟩
  simp [reviseBatch, reviseFile, preambleSub_no_match hpm, hmain]

/-- C2 witness: one deletion span with whitespace after each marker
token, Quit immediately. -/
theorem claim2_witness :
    (WFdoc [⟨"A ".toList, Kind.deletion, " ".toList,
        "\\DIFdel\x7bold\x7d ".toList, " ".toList⟩] ("B".toList) = true ∧
      preambleMatch (render [⟨"A ".toList, Kind.deletion, " ".toList,
        "\\DIFdel\x7bold\x7d ".toList, " ".toList⟩] ("B".toList)) = none) ∧
    reviseText (render [⟨"A ".toList, Kind.deletion, " ".toList,
        "\\DIFdel\x7bold\x7d ".toList, " ".toList⟩] ("B".toList))
      [Decision.quit] = RunResult.quitExit :=
  ⟨⟨by decide, by decide⟩,
    (claim2_quit_exits_without_write []
      ⟨"A ".toList, Kind.deletion, " ".toList, "\\DIFdel\x7bold\x7d ".toList,
        " ".toList⟩ [] ("B".toList)
      [] [] (by decide) (by decide) (by decide) (by decide)).1⟩

/-- C6: if a scanned begin marker has no matching end marker of the same
kind before the end of the buffer, resolution fails with the
`AttributeError` of the failed `.start()` call (`scanFail`) instead of
silently truncating: the failure propagates, the scan loop never reaches
the write-back, and the batch halts with the file unmodified on disk. -/
theorem claim6_malformed_scan_fails (gs : List Seg) (k : Kind)
    (P bad : List Char) (ds : List Decision)
    (hsegs : WFsegs gs = true) (hPws : noLeadWs P = true)
    (hPdel : hasTok delBeginTok P = false)
    (hPadd : hasTok addBeginTok P = false) (hBadWs : noLeadWs bad = true)
    (hBadEm : hasTok (emTok k) bad = false)
    (hlen : gs.length ≤ ds.length)
    (hq : ∀ d ∈ ds.take gs.length, d ≠ Decision.quit)
    (hpm : preambleMatch (render gs (P ++ (bmTok k ++ bad))) = none) :
    reviseText (render gs (P ++ (bmTok k ++ bad))) ds = RunResult.scanFail ∧
    ∀ fs, reviseBatch (render gs (P ++ (bmTok k ++ bad)) :: fs) ds =
      BatchResult.halted [] := by
  have hK : noLeadWs (P ++ (bmTok k ++ bad)) = true :=
    noLeadWs_append hPws (noLeadWs_append (noLeadWs_bmTok k) hBadWs)
  simp only [WFsegs, Bool.and_eq_true, List.all_eq_true] at hsegs
  obtain ⟨hall, hpl⟩ := hsegs
  have hpl' : ∀ x ∈ gs.tail, noLeadWs x.plain = true := fun x hx => by
    simpa using hpl x (List.mem_of_mem_tail hx)
  have hall' : ∀ x ∈ gs, WFseg x = true := fun x hx => hall x hx
  have hmain : reviseText (render gs (P ++ (bmTok k ++ bad))) ds =
      RunResult.scanFail := by
    unfold reviseText render
    have hsuf0 : (renderSegs gs ++ (P ++ (bmTok k ++ bad))).drop 0 =
        renderSegs gs ++ (P ++ (bmTok k ++ bad)) := by simp
    rw [loop_segs gs ds (renderSegs gs ++ (P ++ (bmTok k ++ bad))) 0 []
      (P ++ (bmTok k ++ bad))
      (renderSegs gs ++ (P ++ (bmTok k ++ bad))).length
      hall' hpl' (Or.inr hK) hlen hq hsuf0 (by omega)]
    have hsuf1 : (renderSegs gs ++ (P ++ (bmTok k ++ bad))).drop
        (0 + (renderSegs gs).length) = P ++ (bmTok k ++ bad) := by
      rw [drop_shift hsuf0, List.drop_left]
    have hc1lt : 0 + (renderSegs gs).length <
        (renderSegs gs ++ (P ++ (bmTok k ++ bad))).length :=
      lt_length_of_drop_ne_nil hsuf1 (fun h =>
        bmTok_ne_nil k (List.append_eq_nil.mp (List.append_eq_nil.mp h).2).1)
    have hge := renderSegs_length_ge gs
    obtain ⟨f, hf⟩ : ∃ f,
        (renderSegs gs ++ (P ++ (bmTok k ++ bad))).length - gs.length = f + 1 :=
      ⟨(renderSegs gs ++ (P ++ (bmTok k ++ bad))).length - gs.length - 1,
        by omega⟩
    rw [hf]
    exact loop_step_malformed hPws hPdel hPadd hBadWs hBadEm hsuf1 f
      ([] ++ resolvedSegs gs ds) (ds.drop gs.length)
  refine ⟨hmain, fun fs => ?_⟩
  simp [reviseBatch, reviseFile, preambleSub_no_match hpm, hmain]

/-- C6 witness: an addition begin marker with no addition end marker. -/
theorem claim6_witness :
    (noLeadWs ("A ".toList) = true ∧
      hasTok (emTok Kind.addition) ("x".toList) = false ∧
      preambleMatch (render [] ("A ".toList ++ (bmTok Kind.addition ++
        "x".toList))) = none) ∧
    reviseText (render [] ("A ".toList ++ (bmTok Kind.addition ++ "x".toList)))
      [] = RunResult.scanFail :=
  ⟨⟨by decide, by decide, by decide⟩,
    (claim6_malformed_scan_fails [] Kind.addition ("A ".toList) ("x".toList)
      [] (by decide) (by decide) (by decide) (by decide) (by decide)
      (by decide) (by decide) (by decide) (by decide)).1⟩

/-- C7: the payload unwrap is a non-greedy substitution with no
brace-balancing: for any payload text `w` containing no closing brace,
`\DIFdel{w}` and `\DIFadd{w}` unwrap to exactly `w`, embedded opening
braces (and even embedded wrapping commands) inside `w` preserved
verbatim; and on nested input `\DIFdel{a{b}c}` the match ends at the
first `}`, yielding `a{bc}` — the non-greedy truncation, not a
brace-balanced `a{b}c`. -/
theorem claim7_nongreedy_unwrap :
    (∀ w : List Char, '\x7d' ∉ w →
      cmdSub delCmdTok (delCmdTok ++ (w ++ ['\x7d'])) = w ∧
      cmdSub addCmdTok (addCmdTok ++ (w ++ ['\x7d'])) = w) ∧
    cmdSub delCmdTok ("\\DIFdel\x7ba\x7bb\x7dc\x7d".toList) = "a\x7bbc\x7d".toList ∧
    cmdSub addCmdTok ("\\DIFadd\x7ba\x7bb\x7dc\x7d".toList) = "a\x7bbc\x7d".toList :=
  ⟨fun _ hw => ⟨cmdSub_unwrap hw, cmdSub_unwrap hw⟩, by decide, by decide⟩

/-- C7 witness: a payload with an embedded opening brace and an embedded
wrapping command, preserved verbatim by the unwrap. -/
theorem claim7_witness :
    ('\x7d' ∉ ("a\x7b\\DIFdel\x7bb".toList)) ∧
    cmdSub delCmdTok (delCmdTok ++ ("a\x7b\\DIFdel\x7bb".toList ++ ['\x7d'])) =
      "a\x7b\\DIFdel\x7bb".toList :=
  ⟨by decide, (claim7_nongreedy_unwrap.1 ("a\x7b\\DIFdel\x7bb".toList) (by decide)).1⟩

/-- C8 counterexample: with two preamble-extension blocks, the greedy
DOTALL `.*` of the preamble pattern spans from the first start marker to
the last end marker, so the plain text `x` lying between the two blocks
— outside both — is removed as well, contradicting the claimed frame
property. -/
theorem claim8_counterexample :
    preambleSub ("a".toList ++ (preambleStartTok ++ ("p".toList ++
        (preambleEndTok ++ ("x".toList ++ (preambleStartTok ++
        ("q".toList ++ (preambleEndTok ++ "b".toList)))))))) = "ab".toList ∧
      'x' ∉ preambleSub ("a".toList ++ (preambleStartTok ++ ("p".toList ++
        (preambleEndTok ++ ("x".toList ++ (preambleStartTok ++
        ("q".toList ++ (preambleEndTok ++ "b".toList)))))))) := by
  constructor <;> decide

/-- C8 (amended): preamble-extension removal is applied exactly once per
buffer before scanning begins (`reviseFile` strips and then loops); on a
buffer with zero preamble blocks — no match of the pattern — it is a
no-op; and on a buffer containing exactly one preamble block (no stray
`%` elsewhere) it removes exactly the block, leaving the text before and
after it verbatim.  With several blocks, the greedy `.*` removes
everything from the first start marker to the last end marker. -/
theorem claim8_preamble_removal :
    (∀ raw ds, reviseFile raw ds = reviseText (preambleSub raw) ds) ∧
    (∀ s : List Char, preambleMatch s = none → preambleSub s = s) ∧
    (∀ A mid B : List Char, '%' ∉ A → '%' ∉ mid → '%' ∉ B →
      preambleSub (A ++ (preambleStartTok ++ (mid ++ (preambleEndTok ++ B)))) =
        A ++ B) :=
  ⟨fun _ _ => rfl, fun _ h => preambleSub_no_match h,
    fun _ _ _ hA hmid hB => preambleSub_single hA hmid hB⟩

/-- C8 witness: a single preamble block between `a` and `b`. -/
theorem claim8_witness :
    ('%' ∉ ("a".toList) ∧ '%' ∉ ("m".toList) ∧ '%' ∉ ("b".toList)) ∧
    preambleSub ("a".toList ++ (preambleStartTok ++ ("m".toList ++
        (preambleEndTok ++ "b".toList)))) = "a".toList ++ "b".toList :=
  ⟨⟨by decide, by decide, by decide⟩,
    claim8_preamble_removal.2.2 ("a".toList) ("m".toList) ("b".toList)
      (by decide) (by decide) (by decide)⟩
